import Mathlib

/-!
Verification of the byte-ao byte-sequence library against its specification.

Shallow embedding conventions:
* a `ByteArray` buffer (`std::vector<unsigned char> bytes_`) is a `List Nat`
  whose entries are byte values (each `< 256` in every real execution);
* fallible operations (C++ `throw`) return `Except String _`;
* stateful operations return the new buffer contents explicitly;
* machine arithmetic is `Nat` with explicit `% 2 ^ 64` where `uint64_t`
  overflow matters.

Each definition is translated from the corresponding function in
`src/byte_array_ops.cpp`, `src/byte_array.cpp` or `src/security_ops.cpp`;
the one exception (`resizePadded`) is modelled from the spec and marked so.
-/

namespace ByteAO

/-- The loops `for (i...) result[offset + i] ^= operand[i]` inside
`ByteArrayOps::xor_op` (byte_array_ops.cpp, lines 91-97): XOR the bytes of
`xs` into `r` starting at position `off`.  In the C++ caller the writes are
always in range; `List.set` ignores out-of-range writes just as the loop
never performs them. -/
def xorInto (r : List Nat) (off : Nat) (xs : List Nat) : List Nat :=
  match xs with
  | [] => r
  | x :: rest => xorInto (r.set off ((r.getD off 0) ^^^ x)) (off + 1) rest

/-- Embeds `ByteArrayOps::xor_op(first_operand, second_operand, result_out)`
(byte_array_ops.cpp, lines 79-98): resize the result to
`max(len(a), len(b))`, fill with zeros, then XOR each operand in
right-aligned at its offset. -/
def xor_op (a b : List Nat) : List Nat :=
  xorInto
    (xorInto (List.replicate (max a.length b.length) 0)
      (max a.length b.length - a.length) a)
    (max a.length b.length - b.length) b

/-- Zero-extension of a byte sequence on its most-significant (index-0)
side up to length `n` — the conceptual alignment rule of the spec. -/
def zext (n : Nat) (a : List Nat) : List Nat :=
  List.replicate (n - a.length) 0 ++ a

theorem xorInto_length (xs : List Nat) (r : List Nat) (off : Nat) :
    (xorInto r off xs).length = r.length := by
  induction xs generalizing r off with
  | nil => rfl
  | cons x rest ih => simp [xorInto, ih]

theorem getD_out (l : List Nat) (i : Nat) (h : l.length ≤ i) :
    l.getD i 0 = 0 := by
  rw [List.getD_eq_getElem?_getD, List.getElem?_eq_none h]
  rfl

theorem getD_set_eq_ite (l : List Nat) (j i v : Nat) :
    (l.set j v).getD i 0 =
      if j = i ∧ j < l.length then v else l.getD i 0 := by
  simp only [List.getD_eq_getElem?_getD, List.getElem?_set]
  by_cases h : j = i
  · subst h
    by_cases h2 : j < l.length
    · simp [h2]
    · rw [if_pos rfl, if_neg h2, if_neg (by tauto),
        List.getElem?_eq_none (by omega)]
  · simp [h]

theorem xorInto_getD (xs : List Nat) (r : List Nat) (off i : Nat)
    (hb : off + xs.length ≤ r.length) :
    (xorInto r off xs).getD i 0 =
      if off ≤ i ∧ i < off + xs.length then
        (r.getD i 0) ^^^ (xs.getD (i - off) 0)
      else r.getD i 0 := by
  induction xs generalizing r off with
  | nil =>
    simp only [xorInto, List.length_nil, Nat.add_zero]
    rw [if_neg (by omega)]
  | cons x rest ih =>
    simp only [List.length_cons] at hb
    have hoff : off < r.length := by omega
    simp only [xorInto, List.length_cons]
    rw [ih _ (off + 1) (by simp; omega)]
    have hset : ∀ j, (r.set off ((r.getD off 0) ^^^ x)).getD j 0 =
        if off = j then (r.getD off 0) ^^^ x else r.getD j 0 := by
      intro j
      rw [getD_set_eq_ite]
      by_cases h : off = j
      · rw [if_pos ⟨h, hoff⟩, if_pos h]
      · rw [if_neg (by tauto), if_neg h]
    rcases Nat.lt_trichotomy i off with hlt | heq | hgt
    · rw [if_neg (by omega), if_neg (by omega), hset, if_neg (by omega)]
    · subst heq
      rw [if_neg (by omega), if_pos ⟨Nat.le_refl _, by omega⟩, hset,
        if_pos rfl, Nat.sub_self]
      simp
    · have hne : ¬ off = i := by omega
      rw [hset, if_neg hne]
      by_cases hin : i < off + (rest.length + 1)
      · rw [if_pos (show off + 1 ≤ i ∧ i < off + 1 + rest.length by omega),
          if_pos (show off ≤ i ∧ i < off + (rest.length + 1) by omega)]
        have h1 : i - off = (i - (off + 1)) + 1 := by omega
        rw [h1]
        simp
      · rw [if_neg (show ¬(off + 1 ≤ i ∧ i < off + 1 + rest.length) by omega),
          if_neg (show ¬(off ≤ i ∧ i < off + (rest.length + 1)) by omega)]

theorem zext_length (n : Nat) (a : List Nat) (h : a.length ≤ n) :
    (zext n a).length = n := by
  simp [zext]; omega

theorem zext_getD (n : Nat) (a : List Nat) (i : Nat) :
    (zext n a).getD i 0 =
      if i < n - a.length then 0 else a.getD (i - (n - a.length)) 0 := by
  simp only [zext, List.getD_eq_getElem?_getD, List.getElem?_append,
    List.length_replicate]
  by_cases h : i < n - a.length
  · simp [h, List.getElem?_replicate]
  · simp [h]

theorem eq_of_getD (l₁ l₂ : List Nat) (hl : l₁.length = l₂.length)
    (h : ∀ i, l₁.getD i 0 = l₂.getD i 0) : l₁ = l₂ := by
  apply List.ext_getElem hl
  intro i h₁ h₂
  have hi := h i
  rwa [List.getD_eq_getElem?_getD, List.getD_eq_getElem?_getD,
    List.getElem?_eq_getElem h₁, List.getElem?_eq_getElem h₂,
    Option.getD_some, Option.getD_some] at hi

theorem xor_op_length (a b : List Nat) :
    (xor_op a b).length = max a.length b.length := by
  simp [xor_op, xorInto_length]

theorem getD_replicate_zero (n i : Nat) :
    (List.replicate n (0 : Nat)).getD i 0 = 0 := by
  rw [List.getD_eq_getElem?_getD, List.getElem?_replicate]
  by_cases h : i < n <;> simp [h]

theorem xor_op_getD (a b : List Nat) (i : Nat) :
    (xor_op a b).getD i 0 = (zext (max a.length b.length) a).getD i 0 ^^^
      (zext (max a.length b.length) b).getD i 0 := by
  simp only [xor_op]
  rw [xorInto_getD _ _ _ _
      (by rw [xorInto_length, List.length_replicate]; omega),
    xorInto_getD _ _ _ _ (by rw [List.length_replicate]; omega),
    zext_getD, zext_getD, getD_replicate_zero]
  by_cases him : i < max a.length b.length
  · split_ifs with c1 c2 c3 c4 <;>
      first
        | (exfalso; omega)
        | simp
  · have hA : a.getD (i - (max a.length b.length - a.length)) 0 = 0 :=
      getD_out _ _ (by omega)
    have hB : b.getD (i - (max a.length b.length - b.length)) 0 = 0 :=
      getD_out _ _ (by omega)
    rw [if_neg (show ¬(max a.length b.length - b.length ≤ i ∧
        i < max a.length b.length - b.length + b.length) by omega),
      if_neg (show ¬(max a.length b.length - a.length ≤ i ∧
        i < max a.length b.length - a.length + a.length) by omega),
      if_neg (show ¬ i < max a.length b.length - a.length by omega),
      if_neg (show ¬ i < max a.length b.length - b.length by omega),
      hA, hB]
    simp

theorem getD_zipWith_xor (u v : List Nat) (i : Nat) (hu : i < u.length)
    (hv : i < v.length) :
    (List.zipWith Nat.xor u v).getD i 0 = u.getD i 0 ^^^ v.getD i 0 := by
  rw [List.getD_eq_getElem?_getD, List.getD_eq_getElem?_getD,
    List.getD_eq_getElem?_getD, List.getElem?_zipWith,
    List.getElem?_eq_getElem hu, List.getElem?_eq_getElem hv]
  rfl

theorem xor_op_eq_zipWith (a b : List Nat) :
    xor_op a b = List.zipWith Nat.xor (zext (max a.length b.length) a)
      (zext (max a.length b.length) b) := by
  apply eq_of_getD
  · rw [xor_op_length, List.length_zipWith,
      zext_length _ _ (le_max_left _ _), zext_length _ _ (le_max_right _ _)]
    simp
  · intro i
    by_cases hi : i < max a.length b.length
    · rw [xor_op_getD, getD_zipWith_xor]
      · rw [zext_length _ _ (le_max_left _ _)]; omega
      · rw [zext_length _ _ (le_max_right _ _)]; omega
    · rw [xor_op_getD, getD_out (List.zipWith _ _ _) i
        (by rw [List.length_zipWith, zext_length _ _ (le_max_left _ _),
              zext_length _ _ (le_max_right _ _)]; omega),
        getD_out _ _ (by rw [zext_length _ _ (le_max_left _ _)]; omega),
        getD_out _ _ (by rw [zext_length _ _ (le_max_right _ _)]; omega)]
      simp

theorem zext_eq_self (a : List Nat) : zext a.length a = a := by
  simp [zext]

theorem zipWith_xor_cancel (u v : List Nat) (h : u.length = v.length) :
    List.zipWith Nat.xor u (List.zipWith Nat.xor u v) = v := by
  induction u generalizing v with
  | nil =>
    cases v with
    | nil => rfl
    | cons y ys => simp at h
  | cons x xs ih =>
    cases v with
    | nil => simp at h
    | cons y ys =>
      simp only [List.length_cons, Nat.add_right_cancel_iff] at h
      simp only [List.zipWith_cons_cons, ih ys h, List.cons.injEq, and_true]
      show x ^^^ (x ^^^ y) = y
      rw [← Nat.xor_assoc, Nat.xor_self, Nat.zero_xor]

theorem xor_op_comm (a b : List Nat) : xor_op a b = xor_op b a := by
  rw [xor_op_eq_zipWith, xor_op_eq_zipWith,
    List.zipWith_comm_of_comm Nat.xor Nat.xor_comm, Nat.max_comm b.length]

theorem xor_op_cancel (a b : List Nat) :
    xor_op a (xor_op a b) = zext (max a.length b.length) b := by
  have hlen : (xor_op a b).length = max a.length b.length := xor_op_length a b
  have hmax : max a.length (xor_op a b).length = max a.length b.length := by
    rw [hlen]; omega
  rw [xor_op_eq_zipWith a (xor_op a b), hmax]
  have hzx : zext (max a.length b.length) (xor_op a b) = xor_op a b := by
    conv_lhs => rw [← hlen]
    exact zext_eq_self _
  rw [hzx, xor_op_eq_zipWith a b]
  apply zipWith_xor_cancel
  rw [zext_length _ _ (le_max_left _ _), zext_length _ _ (le_max_right _ _)]

/-- Embeds `ByteArrayOps::xor_op(input, byte, result_out)` (byte_array_ops.cpp,
lines 100-104): wraps the scalar byte in a one-element vector
(`byte_buf(1, byte)`) and delegates to the two-operand engine. -/
def xor_op_single (input : List Nat) (b : Nat) : List Nat :=
  xor_op input [b]

/-- Embeds `ByteArray::operator^(unsigned char byte)` (byte_array.cpp,
lines 94-97): returns a fresh array holding the engine result. -/
def opXorByte (a : List Nat) (b : Nat) : List Nat :=
  xor_op_single a b

/-- Embeds `ByteArray::operator^=(unsigned char byte)` (byte_array.cpp,
lines 107-112): copies `bytes_` to `temp_bytes` and calls the engine
writing into `bytes_`; neither `temp_bytes` nor the fresh one-element
`byte_buf` aliases `result_out`, so the new state is the same engine
application. -/
def opXorAssignByte (a : List Nat) (b : Nat) : List Nat :=
  xor_op_single a b

/-- Embeds `ByteArray::operator^(const ByteArray&)` (byte_array.cpp,
lines 88-91). -/
def opXor (a b : List Nat) : List Nat := xor_op a b

/-- Embeds `ByteArray::operator^=(const ByteArray&)` (byte_array.cpp,
lines 99-105) with a non-aliased argument: `temp_bytes` is a copy of
`bytes_` and the engine writes into `bytes_`; no input aliases the
output. -/
def opXorAssign (a b : List Nat) : List Nat := xor_op a b

/-- The second engine loop of `ByteArrayOps::xor_op` when the second
operand aliases `result_out`: each iteration executes `r[i] ^= r[i]` and
touches index `i` exactly once, left to right, which is this structural
recursion. -/
def selfXor : List Nat → List Nat
  | [] => []
  | x :: rest => (x ^^^ x) :: selfXor rest

/-- Embeds `a ^= a`: `ByteArray::operator^=` called with `other` aliasing `*this`.
Inside `ByteArrayOps::xor_op(temp_bytes, bytes_, bytes_)` the second
operand is the very vector used as `result_out`: `arr_size` is
`max(len, len)`, the resize is a length-preserving no-op, the zero-fill
zeroes the aliased second operand too, the first loop XORs the copy
`temp_bytes` in at offset `0`, and the second loop runs
`result[i] ^= result[i]` over the whole buffer. -/
def opXorAssignSelf (a : List Nat) : List Nat :=
  selfXor
    (xorInto (List.replicate (max a.length a.length) 0)
      (max a.length a.length - a.length) a)

theorem selfXor_eq (l : List Nat) : selfXor l = List.replicate l.length 0 := by
  induction l with
  | nil => rfl
  | cons x rest ih => simp [selfXor, ih, List.replicate_succ]

theorem xor_op_self (a : List Nat) :
    xor_op a a = List.replicate a.length 0 := by
  apply eq_of_getD
  · simp [xor_op_length]
  · intro i
    rw [xor_op_getD, Nat.xor_self, getD_replicate_zero]

theorem getD_append_ite (u v : List Nat) (i : Nat) :
    (u ++ v).getD i 0 =
      if i < u.length then u.getD i 0 else v.getD (i - u.length) 0 := by
  simp only [List.getD_eq_getElem?_getD, List.getElem?_append]
  by_cases h : i < u.length <;> simp [h]

theorem xor_op_single_eq (a : List Nat) (s : Nat) (h : 1 ≤ a.length) :
    xor_op a [s] =
      a.take (a.length - 1) ++ [a.getD (a.length - 1) 0 ^^^ s] := by
  have hm : max a.length ([s] : List Nat).length = a.length := by
    simp only [List.length_cons, List.length_nil]; omega
  have htl : (a.take (a.length - 1)).length = a.length - 1 := by
    simp
  apply eq_of_getD
  · rw [xor_op_length, hm]
    simp only [List.length_append, htl, List.length_cons, List.length_nil]
    omega
  · intro i
    rw [xor_op_getD, hm, zext_getD, zext_getD, Nat.sub_self,
      if_neg (Nat.not_lt_zero i), Nat.sub_zero, getD_append_ite, htl]
    simp only [List.length_cons, List.length_nil]
    by_cases h1 : i < a.length - 1
    · rw [if_pos h1, if_pos h1, Nat.xor_zero,
        List.getD_eq_getElem?_getD (a.take (a.length - 1)) i 0,
        List.getElem?_take_of_lt h1, ← List.getD_eq_getElem?_getD]
    · rw [if_neg h1, if_neg h1]
      by_cases h2 : i < a.length
      · have hi : i = a.length - 1 := by omega
        subst hi
        rw [Nat.sub_self]
        rfl
      · have hz1 : a.getD i 0 = 0 := getD_out _ _ (by omega)
        have hz2 : ([s] : List Nat).getD (i - (a.length - 1)) 0 = 0 :=
          getD_out _ _ (by simp; omega)
        have hz3 : ([a.getD (a.length - 1) 0 ^^^ s] : List Nat).getD
            (i - (a.length - 1)) 0 = 0 :=
          getD_out _ _ (by simp; omega)
        rw [hz1, hz2, hz3, Nat.xor_zero]

/-- C1: `XOR(a, b)` has length `max(len(a), len(b))` and equals the
position-wise XOR of the two operands after each is zero-extended on its
most-significant (index-0) side; in particular
`XOR({0xAA,0xBB}, {0x11,0x22,0x33})` has length 3, first byte `0x11`, and
the 2-byte operand is XORed only into the last two positions. -/
theorem c1_xor_right_aligned (a b : List Nat) :
    (xor_op a b).length = max a.length b.length ∧
    xor_op a b = List.zipWith Nat.xor (zext (max a.length b.length) a)
      (zext (max a.length b.length) b) ∧
    xor_op [0xAA, 0xBB] [0x11, 0x22, 0x33] =
      [0x11, 0xAA ^^^ 0x22, 0xBB ^^^ 0x33] :=
  ⟨xor_op_length a b, xor_op_eq_zipWith a b, by decide⟩

/-- C2: XOR of a non-empty sequence with a scalar byte keeps the length,
XORs only the last byte with the scalar and leaves every other byte
unchanged; the copy-producing `operator^` and the in-place `operator^=`
for a single byte agree on this definition. -/
theorem c2_scalar_xor_last_byte (a : List Nat) (s : Nat)
    (h : 1 ≤ a.length) :
    (opXorByte a s).length = a.length ∧
    opXorByte a s =
      a.take (a.length - 1) ++ [a.getD (a.length - 1) 0 ^^^ s] ∧
    opXorAssignByte a s = opXorByte a s := by
  refine ⟨?_, xor_op_single_eq a s h, rfl⟩
  rw [opXorByte, xor_op_single, xor_op_length]
  simp only [List.length_cons, List.length_nil]
  omega

theorem c2_scalar_xor_last_byte_witness :
    1 ≤ ([0x12, 0x34, 0x56] : List Nat).length ∧
    ((opXorByte [0x12, 0x34, 0x56] 0xFF).length =
        ([0x12, 0x34, 0x56] : List Nat).length ∧
      opXorByte [0x12, 0x34, 0x56] 0xFF =
        ([0x12, 0x34, 0x56] : List Nat).take
            (([0x12, 0x34, 0x56] : List Nat).length - 1) ++
          [([0x12, 0x34, 0x56] : List Nat).getD
              (([0x12, 0x34, 0x56] : List Nat).length - 1) 0 ^^^ 0xFF] ∧
      opXorAssignByte [0x12, 0x34, 0x56] 0xFF =
        opXorByte [0x12, 0x34, 0x56] 0xFF) :=
  ⟨by decide, c2_scalar_xor_last_byte [0x12, 0x34, 0x56] 0xFF (by decide)⟩

/-- C5: XOR is commutative (same length, identical content), and
`XOR(a, XOR(a, b))` gives back `b` zero-extended on its most-significant
side to the result length. -/
theorem c5_xor_commutes_and_cancels (a b : List Nat) :
    xor_op a b = xor_op b a ∧
    xor_op a (xor_op a b) = zext (max a.length b.length) b :=
  ⟨xor_op_comm a b, xor_op_cancel a b⟩

/-- C10: the in-place `a ^= b` produces exactly the copy-producing
`a ^ b` applied to the pre-mutation value of `a`, and this still holds
when the argument aliases the receiver: `a ^= a` leaves a buffer of the
original length with every byte zero. -/
theorem c10_inplace_xor_matches_copy (a b : List Nat) :
    opXorAssign a b = opXor a b ∧
    opXorAssignSelf a = opXor a a ∧
    opXor a a = List.replicate a.length 0 ∧
    (opXorAssignSelf a).length = a.length := by
  have h2 : opXorAssignSelf a = List.replicate a.length 0 := by
    rw [opXorAssignSelf, selfXor_eq, xorInto_length, List.length_replicate,
      Nat.max_self]
  refine ⟨rfl, ?_, xor_op_self a, by rw [h2]; simp⟩
  rw [h2, opXor, xor_op_self]

/-- Embeds `ByteArrayOps::complement(in, out)` (byte_array_ops.cpp, lines 55-69):
throws `std::invalid_argument` on an empty input; otherwise resizes the
output to the input length and writes `out[i] = ~in[i]` for every index.
On a byte value `b < 256`, `~b` truncated to `unsigned char` is
`255 - b`. -/
def complement (l : List Nat) : Except String (List Nat) :=
  if l.isEmpty then
    Except.error "Cannot process an empty byte array"
  else
    Except.ok (l.map (fun b => 255 - b % 256))

/-- C6: complement fails with an invalid-argument condition exactly on the
empty array; on a non-empty array it returns a result of the same length
whose every byte is the bitwise NOT of the corresponding input byte.  The
C++ input is a `const` reference, so non-mutation of the operand is
inherent in the pure embedding. -/
theorem c6_complement (a : List Nat) (h : a ≠ []) :
    complement [] = Except.error "Cannot process an empty byte array" ∧
    ∃ r, complement a = Except.ok r ∧ r.length = a.length ∧
      ∀ i, i < a.length → r.getD i 0 = 255 - (a.getD i 0) % 256 := by
  refine ⟨rfl, a.map (fun b => 255 - b % 256), ?_, by simp, ?_⟩
  · rw [complement, if_neg (by simpa using h)]
  · intro i hi
    rw [List.getD_eq_getElem?_getD, List.getElem?_map,
      List.getElem?_eq_getElem hi, List.getD_eq_getElem?_getD,
      List.getElem?_eq_getElem hi]
    rfl

theorem c6_complement_witness :
    ([0, 255, 85] : List Nat) ≠ [] ∧
    (complement [] = Except.error "Cannot process an empty byte array" ∧
      ∃ r, complement [0, 255, 85] = Except.ok r ∧
        r.length = ([0, 255, 85] : List Nat).length ∧
        ∀ i, i < ([0, 255, 85] : List Nat).length →
          r.getD i 0 = 255 - (([0, 255, 85] : List Nat).getD i 0) % 256) :=
  ⟨by decide, c6_complement [0, 255, 85] (by decide)⟩

/-- Embeds `SecureErase::Options` (security_ops.h): the two erasure flags. -/
structure Options where
  verify_after_erase : Bool
  throw_on_verification_failure : Bool

/-- Embeds `SecureErase::verify_zeroed_(ptr, len)` (security_ops.cpp, lines
99-109): constant-time scan that accumulates every byte with bitwise OR
and compares the accumulator with zero. -/
def verify_zeroed_ (l : List Nat) : Bool :=
  (l.foldl (fun acc b => acc ||| b) 0) == 0

/-- Embeds `SecureErase::secure_zero_vector` (security_ops.cpp, lines 138-171):
an empty vector returns `true` immediately without touching memory;
otherwise the backing storage is zeroed in place (`secure_zero_raw_`),
verified before release when requested (a failed verification escalates
to a throw when requested), and finally the vector is swapped with a
freshly constructed empty one, forcing deallocation.  The result pairs
the returned boolean with the final vector state. -/
def secure_zero_vector (vec : List Nat) (options : Options) :
    Except String (Bool × List Nat) :=
  if vec.isEmpty then
    Except.ok (true, vec)
  else
    let zeroed := List.replicate vec.length 0
    let verified :=
      if options.verify_after_erase then verify_zeroed_ zeroed else true
    if !verified && options.throw_on_verification_failure then
      Except.error "Secure erasure verification failed"
    else
      Except.ok (verified, [])

/-- Embeds `ByteArray::secure_wipe()` (byte_array.cpp, lines 74-78): calls
`secure_zero_vector` on `bytes_` with `Options(true)` — verification on,
throw-on-failure on. -/
def secure_wipe (bytes : List Nat) : Except String (Bool × List Nat) :=
  secure_zero_vector bytes ⟨true, true⟩

/-- Embeds `ByteArray::operator=` (defaulted copy assignment): replaces the
buffer contents with the assigned value. -/
def assign (_dst src : List Nat) : List Nat := src

theorem verify_zeroed_replicate (n : Nat) :
    verify_zeroed_ (List.replicate n 0) = true := by
  have h : ∀ m acc,
      (List.replicate m (0 : Nat)).foldl (fun a b => a ||| b) acc = acc := by
    intro m
    induction m with
    | zero => intro acc; rfl
    | succ k ih =>
      intro acc
      rw [List.replicate_succ, List.foldl_cons, Nat.or_zero]
      exact ih acc
  simp only [verify_zeroed_, h]
  rfl

/-- C4: a secure erase of any buffer succeeds and leaves a zero-length
buffer; the buffer value remains usable afterwards (assignment of new
content yields exactly that content); secure-erasing an already-empty
buffer succeeds trivially via the early-return branch. -/
theorem c4_secure_erase (v : List Nat) (opts : Options) :
    secure_wipe v = Except.ok (true, []) ∧
    secure_zero_vector [] opts = Except.ok (true, []) ∧
    (∀ c : List Nat, assign [] c = c) := by
  refine ⟨?_, rfl, fun c => rfl⟩
  by_cases hv : v = []
  · subst hv; rfl
  · have hne : v.isEmpty = false := by
      cases v with
      | nil => exact absurd rfl hv
      | cons x xs => rfl
    simp [secure_wipe, secure_zero_vector, hne, verify_zeroed_replicate]

/-- The copy loops `result[offset + i] = operand[i]` of the unsafe XOR
variants (plain assignment, the buffer having just been zeroed). -/
def copyInto (r : List Nat) (off : Nat) (xs : List Nat) : List Nat :=
  match xs with
  | [] => r
  | x :: rest => copyInto (r.set off x) (off + 1) rest

/-- Embeds `ByteArrayOps::Unsafe::xor_op(first, first_size, second, second_size,
result, result_size)` (byte_array_ops.cpp, lines 115-141): when the result
buffer is smaller than `max(first_size, second_size)` the function returns
without writing anything; otherwise it zeroes the whole result buffer
(`memset`), copies the first operand in right-aligned to the required
size, and XORs the second operand in at its offset. -/
def unsafe_xor_op (first second result : List Nat) : List Nat :=
  if result.length < max first.length second.length then result
  else
    xorInto
      (copyInto (List.replicate result.length 0)
        (max first.length second.length - first.length) first)
      (max first.length second.length - second.length) second

/-- Embeds `ByteArrayOps::Unsafe::xor_op(input, input_size, byte, result,
result_size)` (byte_array_ops.cpp, lines 143-165): when the result buffer
is smaller than the input the function returns without writing anything;
otherwise it zeroes the result, copies the input right-aligned into it and
XORs the scalar into the last byte of the result. -/
def unsafe_xor_op_single (input : List Nat) (b : Nat) (result : List Nat) :
    List Nat :=
  if result.length < input.length then result
  else
    let r1 := copyInto (List.replicate result.length 0)
      (result.length - input.length) input
    r1.set (result.length - 1) ((r1.getD (result.length - 1) 0) ^^^ b)

/-- C9: both raw-pointer XOR variants are a no-op — the output buffer is
returned entirely unchanged — whenever the provided output length is
smaller than the required size (`max` of the operand lengths for the
two-operand form, the input length for the scalar form). -/
theorem c9_unsafe_xor_noop_when_output_small (first second result input
    rs : List Nat) (b : Nat)
    (h1 : result.length < max first.length second.length)
    (h2 : rs.length < input.length) :
    unsafe_xor_op first second result = result ∧
    unsafe_xor_op_single input b rs = rs := by
  constructor
  · rw [unsafe_xor_op, if_pos h1]
  · rw [unsafe_xor_op_single, if_pos h2]

theorem c9_unsafe_xor_noop_when_output_small_witness :
    ([9] : List Nat).length < max ([1, 2] : List Nat).length
        ([3, 4, 5] : List Nat).length ∧
    ([7] : List Nat).length < ([1, 2] : List Nat).length ∧
    (unsafe_xor_op [1, 2] [3, 4, 5] [9] = [9] ∧
      unsafe_xor_op_single [1, 2] 255 [7] = [7]) :=
  ⟨by decide, by decide,
    c9_unsafe_xor_noop_when_output_small [1, 2] [3, 4, 5] [9] [1, 2] [7]
      255 (by decide) (by decide)⟩

/-- Embeds `EZeroPadDir` (byte_array.h public header): which end of the buffer
is preserved on a length change. -/
inductive EZeroPadDir where
  | MSB_PAD
  | LSB_PAD

/-- Modelled from the spec: the pad-direction-aware length change
(`ByteArray::resize(new_size, ..., EZeroPadDir)` and the constructor
`ByteArray(other, num_bytes, EZeroPadDir)`) is declared in the public
header and exercised by the unit tests, but its implementation is missing
from the sources under review (the present `byte_array.cpp` resize and
two-argument constructor take no pad direction).  This definition follows
the spec wording: `MSB_PAD` growth inserts zeros at index 0, `LSB_PAD`
growth appends zeros at the end; shrink removes from the opposite end of
the preserved bytes. -/
def resizePadded (a : List Nat) (newSize : Nat) (dir : EZeroPadDir) :
    List Nat :=
  match dir with
  | .MSB_PAD =>
      if a.length ≤ newSize then List.replicate (newSize - a.length) 0 ++ a
      else a.take newSize
  | .LSB_PAD =>
      if a.length ≤ newSize then a ++ List.replicate (newSize - a.length) 0
      else a.drop (a.length - newSize)

/-- C3: resizing `{0x01,0x02,0x03}` to 5 bytes yields
`{0x00,0x00,0x01,0x02,0x03}` under `MSB_PAD` and
`{0x01,0x02,0x03,0x00,0x00}` under `LSB_PAD`; in general a grow under
`MSB_PAD` produces a buffer of the requested length whose leading
`new - old` bytes are zero and whose remaining tail is exactly the
original buffer. -/
theorem c3_resize_pad_directions (a : List Nat) (n : Nat)
    (h : a.length ≤ n) :
    resizePadded [1, 2, 3] 5 .MSB_PAD = [0, 0, 1, 2, 3] ∧
    resizePadded [1, 2, 3] 5 .LSB_PAD = [1, 2, 3, 0, 0] ∧
    (resizePadded a n .MSB_PAD).length = n ∧
    (resizePadded a n .MSB_PAD).take (n - a.length) =
      List.replicate (n - a.length) 0 ∧
    (resizePadded a n .MSB_PAD).drop (n - a.length) = a := by
  refine ⟨by decide, by decide, ?_, ?_, ?_⟩
  · simp only [resizePadded, if_pos h, List.length_append,
      List.length_replicate]
    omega
  · rw [resizePadded, if_pos h]
    exact List.take_left' (by simp)
  · rw [resizePadded, if_pos h]
    exact List.drop_left' (by simp)

theorem c3_resize_pad_directions_witness :
    ([10, 20] : List Nat).length ≤ 4 ∧
    (resizePadded [1, 2, 3] 5 .MSB_PAD = [0, 0, 1, 2, 3] ∧
      resizePadded [1, 2, 3] 5 .LSB_PAD = [1, 2, 3, 0, 0] ∧
      (resizePadded [10, 20] 4 .MSB_PAD).length = 4 ∧
      (resizePadded [10, 20] 4 .MSB_PAD).take
          (4 - ([10, 20] : List Nat).length) =
        List.replicate (4 - ([10, 20] : List Nat).length) 0 ∧
      (resizePadded [10, 20] 4 .MSB_PAD).drop
          (4 - ([10, 20] : List Nat).length) = [10, 20]) :=
  ⟨by decide, c3_resize_pad_directions [10, 20] 4 (by decide)⟩

/-- The `do { bytes_needed++; temp >>= 8; } while (temp != 0)` loop of
`ByteArrayOps::uint64_to_bytearray` (byte_array_ops.cpp, lines 180-185):
the number of base-256 digits of the value, at least 1 (zero needs one
byte). -/
def bytesNeeded (v : Nat) : Nat :=
  if h : v < 256 then 1 else 1 + bytesNeeded (v / 256)
decreasing_by exact Nat.div_lt_self (by omega) (by omega)

/-- The fill loop `out[bytes_needed - 1 - i] = (value >> (i*8)) & 0xFF`
of `ByteArrayOps::uint64_to_bytearray` (byte_array_ops.cpp, lines
191-193), re-indexed by output position `j = bytes_needed - 1 - i`. -/
def beList (n v : Nat) : List Nat :=
  (List.range n).map (fun j => (v >>> ((n - 1 - j) * 8)) &&& 255)

/-- Embeds `ByteArrayOps::uint64_to_bytearray(in, out)` (byte_array_ops.cpp,
lines 175-194): big-endian bytes, most significant first, using exactly
`bytes_needed` bytes. -/
def uint64_to_bytearray (v : Nat) : List Nat :=
  beList (bytesNeeded v) v

/-- Embeds `ByteArrayOps::bytearray_to_uint64(in)` (byte_array_ops.cpp, lines
196-210): errors when the input exceeds 8 bytes, otherwise folds
`result = (result << 8) | in[i]` in `uint64_t` arithmetic. -/
def bytearray_to_uint64 (l : List Nat) : Except String Nat :=
  if l.length > 8 then
    Except.error
      "Byte array is larger than 64-bit and cannot be represented as such"
  else
    Except.ok
      (l.foldl (fun result b => (((result <<< 8) % 2 ^ 64) ||| b) % 2 ^ 64) 0)

theorem bytesNeeded_pos (v : Nat) : 1 ≤ bytesNeeded v := by
  rw [bytesNeeded]
  split
  · exact Nat.le_refl 1
  · exact Nat.le_add_right 1 _

theorem lt_pow_bytesNeeded (v : Nat) : v < 256 ^ bytesNeeded v := by
  induction v using Nat.strong_induction_on with
  | _ v ih =>
    rw [bytesNeeded]
    by_cases h : v < 256
    · rw [dif_pos h]
      simpa using h
    · rw [dif_neg h]
      have hd := ih (v / 256) (Nat.div_lt_self (by omega) (by omega))
      have h3 : v < 256 * (v / 256 + 1) := by
        have h4 := Nat.div_add_mod v 256
        have h5 : v % 256 < 256 := Nat.mod_lt _ (by omega)
        omega
      have h6 : 256 * (v / 256 + 1) ≤ 256 * 256 ^ bytesNeeded (v / 256) :=
        Nat.mul_le_mul_left _ hd
      have h7 : 256 ^ (1 + bytesNeeded (v / 256)) =
          256 * 256 ^ bytesNeeded (v / 256) := by
        rw [Nat.pow_add, Nat.pow_one]
      omega

theorem pow_pred_le_bytesNeeded (v : Nat) (hv : v ≠ 0) :
    256 ^ (bytesNeeded v - 1) ≤ v := by
  induction v using Nat.strong_induction_on with
  | _ v ih =>
    rw [bytesNeeded]
    by_cases h : v < 256
    · rw [dif_pos h]
      simpa using Nat.one_le_iff_ne_zero.mpr hv
    · rw [dif_neg h]
      have hvd : v / 256 ≠ 0 := by
        have h4 := Nat.div_add_mod v 256
        have h5 : v % 256 < 256 := Nat.mod_lt _ (by omega)
        omega
      have ihd := ih (v / 256) (Nat.div_lt_self (by omega) (by omega)) hvd
      have hb := bytesNeeded_pos (v / 256)
      have hsimp : 1 + bytesNeeded (v / 256) - 1 = bytesNeeded (v / 256) := by
        omega
      rw [hsimp]
      have hpow : 256 ^ bytesNeeded (v / 256) =
          256 * 256 ^ (bytesNeeded (v / 256) - 1) := by
        conv_lhs =>
          rw [show bytesNeeded (v / 256) =
            (bytesNeeded (v / 256) - 1) + 1 by omega]
        rw [Nat.pow_succ]
        ring
      have hmul : 256 * 256 ^ (bytesNeeded (v / 256) - 1) ≤
          256 * (v / 256) := Nat.mul_le_mul_left _ ihd
      have h4 := Nat.div_add_mod v 256
      omega

theorem bytesNeeded_le (v : Nat) :
    ∀ k, 1 ≤ k → v < 256 ^ k → bytesNeeded v ≤ k := by
  induction v using Nat.strong_induction_on with
  | _ v ih =>
    intro k hk hv
    rw [bytesNeeded]
    by_cases h : v < 256
    · rw [dif_pos h]
      omega
    · rw [dif_neg h]
      have hk2 : 2 ≤ k := by
        by_contra hcon
        have hk1 : k = 1 := by omega
        subst hk1
        rw [Nat.pow_one] at hv
        omega
      have hkk : 256 ^ (k - 1) * 256 = 256 ^ k := by
        rw [← Nat.pow_succ]
        congr 1
        omega
      have hdlt : v / 256 < 256 ^ (k - 1) := by
        rw [Nat.div_lt_iff_lt_mul (by omega)]
        omega
      have := ih (v / 256) (Nat.div_lt_self (by omega) (by omega)) (k - 1)
        (by omega) hdlt
      omega

theorem beList_succ (m v : Nat) :
    beList (m + 1) v = ((v >>> (m * 8)) &&& 255) :: beList m v := by
  have hcomp : (fun j => (v >>> ((m + 1 - 1 - j) * 8)) &&& 255) ∘ Nat.succ =
      (fun j => (v >>> ((m - 1 - j) * 8)) &&& 255) := by
    funext j
    simp only [Function.comp_apply]
    have harg : m + 1 - 1 - Nat.succ j = m - 1 - j := by omega
    rw [harg]
  rw [beList, List.range_succ_eq_map, List.map_cons, List.map_map, hcomp,
    beList]
  simp

theorem shift_and_byte (v m : Nat) :
    (v >>> (m * 8)) &&& 255 = (v / 256 ^ m) % 256 := by
  have h8 : (255 : Nat) = 2 ^ 8 - 1 := by norm_num
  rw [h8, Nat.and_pow_two_sub_one_eq_mod, Nat.shiftRight_eq_div_pow]
  have hp : (2 : Nat) ^ (m * 8) = 256 ^ m := by
    rw [Nat.mul_comm, Nat.pow_mul]
  rw [hp]

theorem foldl_beList (n : Nat) : ∀ v acc,
    acc * 256 ^ n + v % 256 ^ n < 2 ^ 64 →
    (beList n v).foldl
        (fun result b => (((result <<< 8) % 2 ^ 64) ||| b) % 2 ^ 64) acc =
      acc * 256 ^ n + v % 256 ^ n := by
  induction n with
  | zero =>
    intro v acc h
    simp [beList, Nat.mod_one]
  | succ m ih =>
    intro v acc h
    rw [beList_succ, List.foldl_cons, shift_and_byte]
    have hpow : (256 : Nat) ^ (m + 1) = 256 ^ m * 256 := Nat.pow_succ 256 m
    have hd : (v / 256 ^ m) % 256 < 256 := Nat.mod_lt _ (by omega)
    have hsh : acc <<< 8 = acc * 256 := by
      rw [Nat.shiftLeft_eq]
    have hacc : acc * 256 < 2 ^ 64 := by
      have h1 : acc * 256 ≤ acc * 256 ^ (m + 1) := by
        apply Nat.mul_le_mul_left
        calc (256 : Nat) = 256 ^ 1 := (Nat.pow_one 256).symm
          _ ≤ 256 ^ (m + 1) := Nat.pow_le_pow_right (by omega) (by omega)
      omega
    have hmod : v % 256 ^ (m + 1) =
        v % 256 ^ m + 256 ^ m * ((v / 256 ^ m) % 256) := Nat.mod_pow_succ
    have hkey : (acc * 256 + (v / 256 ^ m) % 256) * 256 ^ m + v % 256 ^ m =
        acc * 256 ^ (m + 1) + v % 256 ^ (m + 1) := by
      rw [hmod, hpow]
      ring
    have hlt2 : (acc * 256 + (v / 256 ^ m) % 256) * 256 ^ m +
        v % 256 ^ m < 2 ^ 64 := by
      rw [hkey]
      exact h
    have haccd : acc * 256 + (v / 256 ^ m) % 256 < 2 ^ 64 := by
      have h2 : acc * 256 + (v / 256 ^ m) % 256 ≤
          (acc * 256 + (v / 256 ^ m) % 256) * 256 ^ m :=
        Nat.le_mul_of_pos_right _ (by positivity)
      omega
    have hstep : (((acc <<< 8) % 2 ^ 64) ||| (v / 256 ^ m) % 256) % 2 ^ 64 =
        acc * 256 + (v / 256 ^ m) % 256 := by
      rw [hsh, Nat.mod_eq_of_lt hacc]
      have h28 : (2 : Nat) ^ 8 = 256 := by norm_num
      have hblt : (v / 256 ^ m) % 256 < 2 ^ 8 := by
        rw [h28]
        exact hd
      have hor := Nat.mul_add_lt_is_or hblt acc
      rw [h28] at hor
      rw [Nat.mul_comm 256 acc] at hor
      rw [← hor, Nat.mod_eq_of_lt haccd]
    rw [hstep, ih v (acc * 256 + (v / 256 ^ m) % 256) hlt2]
    exact hkey

theorem uint64_to_bytearray_zero : uint64_to_bytearray 0 = [0] := by
  have h1 : bytesNeeded 0 = 1 := by
    rw [bytesNeeded]
    norm_num
  simp [uint64_to_bytearray, h1, beList]

theorem uint64_to_bytearray_head (v : Nat) (hv : v ≠ 0) :
    (uint64_to_bytearray v).headD 0 ≠ 0 := by
  have hn := bytesNeeded_pos v
  have hne : bytesNeeded v = (bytesNeeded v - 1) + 1 := by omega
  rw [uint64_to_bytearray, hne, beList_succ, List.headD_cons,
    shift_and_byte]
  have hle : 256 ^ (bytesNeeded v - 1) ≤ v := pow_pred_le_bytesNeeded v hv
  have hlt : v < 256 ^ bytesNeeded v := lt_pow_bytesNeeded v
  have hdivpos : 1 ≤ v / 256 ^ (bytesNeeded v - 1) := by
    rw [Nat.le_div_iff_mul_le (by positivity)]
    omega
  have hdivlt : v / 256 ^ (bytesNeeded v - 1) < 256 := by
    rw [Nat.div_lt_iff_lt_mul (by positivity)]
    have hpow : 256 ^ (bytesNeeded v - 1) * 256 = 256 ^ bytesNeeded v := by
      rw [← Nat.pow_succ]
      congr 1
      omega
    omega
  rw [Nat.mod_eq_of_lt hdivlt]
  omega

/-- C7: serializing a 64-bit value yields the minimal big-endian byte
sequence — a single `0x00` for zero, otherwise a sequence with a nonzero
leading byte — converting it back returns the original value, and
converting any buffer longer than 8 bytes fails with an invalid-argument
error. -/
theorem c7_uint64_minimal_roundtrip (v : Nat) (h : v < 2 ^ 64) :
    (v = 0 → uint64_to_bytearray v = [0]) ∧
    (v ≠ 0 → (uint64_to_bytearray v).headD 0 ≠ 0) ∧
    bytearray_to_uint64 (uint64_to_bytearray v) = Except.ok v ∧
    (∀ l : List Nat, 8 < l.length →
      bytearray_to_uint64 l = Except.error
        "Byte array is larger than 64-bit and cannot be represented as such") := by
  have hlen : (uint64_to_bytearray v).length = bytesNeeded v := by
    simp [uint64_to_bytearray, beList]
  have hle8 : bytesNeeded v ≤ 8 := by
    apply bytesNeeded_le v 8 (by omega)
    calc v < 2 ^ 64 := h
      _ = 256 ^ 8 := by norm_num
  refine ⟨?_, fun hv => uint64_to_bytearray_head v hv, ?_, ?_⟩
  · intro hv
    subst hv
    exact uint64_to_bytearray_zero
  · rw [bytearray_to_uint64, if_neg (by rw [hlen]; omega)]
    congr 1
    have hvlt : v < 256 ^ bytesNeeded v := lt_pow_bytesNeeded v
    have hb : 0 * 256 ^ bytesNeeded v + v % 256 ^ bytesNeeded v < 2 ^ 64 := by
      have hmle : v % 256 ^ bytesNeeded v ≤ v := Nat.mod_le _ _
      omega
    rw [uint64_to_bytearray, foldl_beList (bytesNeeded v) v 0 hb,
      Nat.zero_mul, Nat.zero_add, Nat.mod_eq_of_lt hvlt]
  · intro l hl
    rw [bytearray_to_uint64, if_pos hl]

theorem c7_uint64_minimal_roundtrip_witness :
    (43981 : Nat) < 2 ^ 64 ∧
    (((43981 : Nat) = 0 → uint64_to_bytearray 43981 = [0]) ∧
      ((43981 : Nat) ≠ 0 → (uint64_to_bytearray 43981).headD 0 ≠ 0) ∧
      bytearray_to_uint64 (uint64_to_bytearray 43981) = Except.ok 43981 ∧
      (∀ l : List Nat, 8 < l.length →
        bytearray_to_uint64 l = Except.error
          "Byte array is larger than 64-bit and cannot be represented as such")) :=
  ⟨by norm_num, c7_uint64_minimal_roundtrip 43981 (by norm_num)⟩

/-- Hexadecimal digit predicate ('0'-'9', 'a'-'f', 'A'-'F'). -/
def isHexDigit (c : Char) : Bool :=
  (48 ≤ c.toNat && c.toNat ≤ 57) || (97 ≤ c.toNat && c.toNat ≤ 102) ||
    (65 ≤ c.toNat && c.toNat ≤ 70)

/-- Value of a hexadecimal digit. -/
def hexDigitVal (c : Char) : Nat :=
  if 48 ≤ c.toNat && c.toNat ≤ 57 then c.toNat - 48
  else if 97 ≤ c.toNat && c.toNat ≤ 102 then c.toNat - 87
  else c.toNat - 55

/-- Embeds `isspace` in the "C" locale (space, \t, \n, \v, \f, \r), which
`strtol` skips at the start of its subject sequence. -/
def isStrtolSpace (c : Char) : Bool :=
  c.toNat == 32 || (9 ≤ c.toNat && c.toNat ≤ 13)

/-- Embeds `strtol(hex_byte, &end_ptr, 16)` restricted to the two-character
buffers built by the hex constructor, combined with the error check made
by the caller, `end_ptr == hex_byte` or a character left before the
string terminator (byte_array.cpp, lines 56-63).  Per the C standard, the subject sequence
of a base-16 `strtol` may begin with whitespace or a single sign, so for a
two-character buffer the call consumes both characters (end_ptr at the
terminator, no error) exactly when both characters are hex digits, or the
first is '+', '-' or whitespace and the second is a hex digit; every
other buffer leaves `end_ptr` short of the terminator (or performs no
conversion) and makes the constructor throw.  The resulting `long` is
reduced modulo 256 by `static_cast<unsigned char>`, so a minus sign
yields `(256 - value) % 256`. -/
def strtol16_pair (c0 c1 : Char) : Option Nat :=
  if isHexDigit c0 && isHexDigit c1 then
    some (16 * hexDigitVal c0 + hexDigitVal c1)
  else if c0 == '+' && isHexDigit c1 then
    some (hexDigitVal c1)
  else if c0 == '-' && isHexDigit c1 then
    some ((256 - hexDigitVal c1) % 256)
  else if isStrtolSpace c0 && isHexDigit c1 then
    some (hexDigitVal c1)
  else
    none

/-- Embeds `ByteArray::ByteArray(std::string_view hex_str)` (byte_array.cpp,
lines 39-67): the digits are consumed two at a time; a final lone digit is
paired with a leading '0' (so it lands in the low nibble); a group on
which `strtol` fails — no conversion, or a character left before the
terminator — raises the decode error. -/
def hexParse : List Char → Except String (List Nat)
  | [] => Except.ok []
  | [c] =>
      match strtol16_pair '0' c with
      | some v => Except.ok [v]
      | none => Except.error "Invalid hex character"
  | c0 :: c1 :: rest =>
      match strtol16_pair c0 c1 with
      | some v =>
          match hexParse rest with
          | Except.ok tail => Except.ok (v :: tail)
          | Except.error e => Except.error e
      | none => Except.error "Invalid hex character"

/-- C8 (refuting the error clause): the spec requires every input
containing a non-hexadecimal character to raise a decode error, but
because `strtol` skips leading whitespace and accepts a sign inside each
two-character group, the input "+5" — whose '+' is not a hex digit —
parses successfully to the single byte 0x05, and "-1" parses to 0xFF; the
accepted parts of the claim do hold: the odd-length digit string
"fe81eabd5" parses to the 5 bytes {0xfe,0x81,0xea,0xbd,0x05} with the
lone trailing digit in the low nibble. -/
theorem c8_hex_nonhex_accepted :
    hexParse ['+', '5'] = Except.ok [5] ∧
    hexParse ['-', '1'] = Except.ok [255] ∧
    hexParse
        ['f', 'e', '8', '1', 'e', 'a', 'b', 'd', '5'] =
      Except.ok [254, 129, 234, 189, 5] := by
  refine ⟨?_, ?_, ?_⟩ <;> rfl

end ByteAO
